import Mathlib

/-!
Verification of the multi-language signature extraction engine of the
context-it repository (src/core/processors).  The TypeScript sources are
shallowly embedded: each parser method is translated into an executable Lean
function on `List Char` / `String`, mirroring the JavaScript string and regex
semantics the code relies on (the JS whitespace class is modelled by `isWS`
below; regexes are compiled by hand into equivalent scanning functions).
-/

namespace CtxExtract

/-- `Param` from src/types/types.ts.  Optional JS object fields are modelled
as `Option`; a JS object lacking the field is `none`. -/
structure Param where
  name : String
  type : Option String := none
  isMutable : Option Bool := none
deriving Repr, DecidableEq

/-- `FunctionSignature` from src/types/types.ts, with the `className` field
the parsers attach for methods. -/
structure FunctionSignature where
  name : String
  parameters : List Param
  returnType : Option String := none
  isAsync : Option Bool := none
  isMethod : Option Bool := none
  className : Option String := none
deriving Repr, DecidableEq

/-- The opening brace character, written via its code point. -/
def lbrace : Char := Char.ofNat 123

/-- The closing brace character, written via its code point. -/
def rbrace : Char := Char.ofNat 125

/-- JS whitespace class (used by `\s` and `trim`): the members that can occur
in the source texts handled here. -/
def isWS (c : Char) : Bool :=
  c = ' ' || c = '\t' || c = '\n' || c = '\r' || c = Char.ofNat 11 ||
    c = Char.ofNat 12 || c = Char.ofNat 160 || c = Char.ofNat 65279

/-- JS line terminators: `.` in a regex matches anything except these. -/
def isLineTerm (c : Char) : Bool :=
  c = '\n' || c = '\r' || c = Char.ofNat 8232 || c = Char.ofNat 8233

/-- JS `\w`, i.e. `[A-Za-z0-9_]`. -/
def isWordChar (c : Char) : Bool :=
  ('a' ≤ c && c ≤ 'z') || ('A' ≤ c && c ≤ 'Z') || ('0' ≤ c && c ≤ '9') || c = '_'

/-- `[A-Za-z_]`, the identifier start class used by the parsers. -/
def isIdentStart (c : Char) : Bool :=
  ('a' ≤ c && c ≤ 'z') || ('A' ≤ c && c ≤ 'Z') || c = '_'

/-- `pat` is a prefix of the second list (JS `startsWith`). -/
def leadsWith : List Char → List Char → Bool
  | [], _ => true
  | _ :: _, [] => false
  | p :: ps, x :: xs => p = x && leadsWith ps xs

/-- JS `trim` on a character list. -/
def trimL (l : List Char) : List Char :=
  ((l.dropWhile isWS).reverse.dropWhile isWS).reverse

/-- JS `trim` on a string. -/
def jsTrim (s : String) : String := ⟨trimL s.data⟩

/-- Index of the first occurrence of `pat` (JS `indexOf`). -/
def findSub (pat : List Char) : List Char → Option Nat
  | [] => if leadsWith pat [] then some 0 else none
  | l@(_ :: xs) => if leadsWith pat l then some 0 else (findSub pat xs).map (· + 1)

/-- JS `includes`. -/
def jsIncludes (l pat : List Char) : Bool := (findSub pat l).isSome

/-- JS `indexOf(pat, i)`: first occurrence at index ≥ `i`. -/
def findSubFrom (l pat : List Char) (i : Nat) : Option Nat :=
  (findSub pat (l.drop i)).map (· + i)

/-- JS `split(sep)` for a one-character separator (keeps empty pieces). -/
def splitOnChar (sep : Char) : List Char → List (List Char)
  | [] => [[]]
  | x :: xs =>
    let r := splitOnChar sep xs
    if x = sep then [] :: r
    else match r with
      | h :: t => (x :: h) :: t
      | [] => [[x]]

/-- JS `split(/\s+/)`: pieces between maximal whitespace runs, including the
empty leading/trailing pieces JS produces. -/
def jsSplitWs : List Char → List (List Char)
  | [] => [[]]
  | x :: xs =>
    let r := jsSplitWs xs
    if isWS x then
      match xs with
      | y :: _ => if isWS y then r else [] :: r
      | [] => [] :: r
    else match r with
      | h :: t => (x :: h) :: t
      | [] => [[x]]

/-- JS `replace(/\s+/g, " ")`: collapse every whitespace run to one space. -/
def collapseWs : List Char → List Char
  | [] => []
  | x :: xs =>
    if isWS x then
      match xs with
      | y :: _ => if isWS y then collapseWs xs else ' ' :: collapseWs xs
      | [] => [' ']
    else x :: collapseWs xs

/-- JS `arr.join(" ")`. -/
def joinSpace : List (List Char) → List Char
  | [] => []
  | [x] => x
  | x :: xs => x ++ ' ' :: joinSpace xs

/-- JS `replace(/,$/, "")`. -/
def dropTrailingComma (l : List Char) : List Char :=
  match l.getLast? with
  | some ',' => l.dropLast
  | _ => l

/-- JS `lastIndexOf(ch)`. -/
def lastIdxOfChar (ch : Char) (l : List Char) : Option Nat :=
  (List.findIdx? (· = ch) l.reverse).map (fun k => l.length - 1 - k)

/-- JS `lastIndexOf(ch, i)`: last occurrence at index ≤ `i`. -/
def lastIdxLE (ch : Char) (l : List Char) (i : Nat) : Option Nat :=
  lastIdxOfChar ch (l.take (i + 1))

/-!  The balanced-delimiter scanner.  Both `TypeScriptParser.readBalanced`
(src/core/processors/tsParser.ts) and `GoParser.readBalanced`
(src/core/processors/goParser.ts) run the same loop: starting at the opening
delimiter, `depth` is incremented at every `o`, decremented at every `c`, and
the scan stops at the character that brings `depth` back to `0`.  `rbFind`
is that loop, returning the offset (relative to the start) of the matching
close, or `none` when the input ends first. -/
def rbFind (o c : Char) : List Char → Int → Option Nat
  | [], _ => none
  | ch :: rest, depth =>
    if ch = o then (rbFind o c rest (depth + 1)).map (· + 1)
    else if ch = c then
      if depth - 1 = 0 then some 0
      else (rbFind o c rest (depth - 1)).map (· + 1)
    else (rbFind o c rest depth).map (· + 1)

/-- `TypeScriptParser.readBalanced` (tsParser.ts): returns the balanced
substring and the index just past the matching close; `("", start)` when the
start index does not hold the opening delimiter; the remainder of the string
and the end-of-string index when unbalanced. -/
def TypeScriptParser.readBalanced (src : String) (start : Nat) (o c : Char) :
    String × Nat :=
  match src.data[start]? with
  | some ch =>
    if ch = o then
      match rbFind o c (src.data.drop start) 0 with
      | some k => (⟨(src.data.drop start).take (k + 1)⟩, start + k + 1)
      | none => (⟨src.data.drop start⟩, src.data.length)
    else ("", start)
  | none => ("", start)

/-- `GoParser.readBalanced` (goParser.ts): same loop, but the second component
is the remaining string (`rest`) instead of an index: the unchanged input on a
non-opening start, `""` when unbalanced, and the suffix after the matching
close otherwise. -/
def GoParser.readBalanced (src : String) (start : Nat) (o c : Char) :
    String × String :=
  match src.data[start]? with
  | some ch =>
    if ch = o then
      match rbFind o c (src.data.drop start) 0 with
      | some k => (⟨(src.data.drop start).take (k + 1)⟩, ⟨src.data.drop (start + k + 1)⟩)
      | none => (⟨src.data.drop start⟩, "")
    else ("", src)
  | none => ("", src)

/-- List-level version of the Go scanner, used inside `GoParser`. -/
def readBalancedL (l : List Char) (o c : Char) : List Char × List Char :=
  match l with
  | ch :: _ =>
    if ch = o then
      match rbFind o c l 0 with
      | some k => (l.take (k + 1), l.drop (k + 1))
      | none => (l, [])
    else ([], l)
  | [] => ([], l)

/-- The per-character depth contribution of the balanced scan. -/
def rbDelta (o c : Char) (ch : Char) : Int :=
  if ch = o then 1 else if ch = c then -1 else 0

/-- Net nesting depth of a character list for the pair `(o, c)`. -/
def rbBal (o c : Char) (l : List Char) : Int :=
  (l.map (rbDelta o c)).sum

/-- `BaseParser.extractSignatures` (baseParser.ts): run the language's match
extractor, parse every candidate, and keep the successfully parsed ones.  The
surrounding `try/catch` returns `[]` on an exception; the embedding is a total
function, so only the happy path exists. -/
def BaseParser.extractSignatures (em : String → List String)
    (pf : String → Option FunctionSignature) (code : String) :
    List FunctionSignature :=
  (em code).filterMap pf

namespace GoParser

/-- `removeComments`, pass 1: `replace(/\/\/.*$/gm, "")`.  The flag is true
while inside a line comment (the terminator itself is kept, since `.` does not
match it). -/
def stripLineAux : List Char → Bool → List Char
  | [], _ => []
  | x :: xs, true => if isLineTerm x then x :: stripLineAux xs false else stripLineAux xs true
  | x :: xs, false =>
    if x = '/' then
      match xs with
      | y :: _ => if y = '/' then stripLineAux xs true else x :: stripLineAux xs false
      | [] => [x]
    else x :: stripLineAux xs false

/-- Remainder after the first `*/` (the lazy `[\s\S]*?\*\/`), if any. -/
def cutAfterClose : List Char → Option (List Char)
  | [] => none
  | '*' :: '/' :: rest => some rest
  | _ :: rest => cutAfterClose rest

/-- `removeComments`, pass 2: `replace(/\/\*[\s\S]*?\*\//g, "")`.  A `/*`
without a later `*/` is not a match and is kept verbatim. -/
def stripBlockAux : Nat → List Char → List Char
  | 0, l => l
  | _ + 1, [] => []
  | fuel + 1, x :: xs =>
    if x = '/' then
      match xs with
      | '*' :: rest =>
        match cutAfterClose rest with
        | some rem => stripBlockAux fuel rem
        | none => x :: stripBlockAux fuel xs
      | _ => x :: stripBlockAux fuel xs
    else x :: stripBlockAux fuel xs

/-- `GoParser.removeComments` (goParser.ts): line comments, then block
comments. -/
def removeComments (code : String) : String :=
  let afterLine := stripLineAux code.data false
  ⟨stripBlockAux afterLine.length afterLine⟩

/-- The inner loop of `extractFunctionMatches`: consume the signature window
from `j` until an opening brace at zero parenthesis/bracket depth (depths
clamped at zero, as `Math.max(0, d - 1)` does), returning the index just past
that brace (or the end of input). -/
def scanSig (l : List Char) : Nat → Nat → Nat → Nat → Nat
  | 0, j, _, _ => j
  | fuel + 1, j, pd, bd =>
    match l[j]? with
    | none => j
    | some ch =>
      if ch = '(' then scanSig l fuel (j + 1) (pd + 1) bd
      else if ch = ')' then scanSig l fuel (j + 1) (pd - 1) bd
      else if ch = '[' then scanSig l fuel (j + 1) pd (bd + 1)
      else if ch = ']' then scanSig l fuel (j + 1) pd (bd - 1)
      else if ch = lbrace then
        if pd = 0 && bd = 0 then j + 1 else scanSig l fuel (j + 1) pd bd
      else scanSig l fuel (j + 1) pd bd

/-- `[^\n{]*\(` — scan forward for `(`, failing at a newline, an opening brace
or the end of input. -/
def scanParenOK : List Char → Bool
  | [] => false
  | ch :: rest =>
    if ch = '(' then true
    else if ch = '\n' || ch = lbrace then false
    else scanParenOK rest

/-- After at least one whitespace character has been consumed by `\s+`:
either `[^\n{]*\(` matches here, or one more whitespace character is consumed
(the regex backtracking over `\s+`). -/
def validTailMore : List Char → Bool
  | [] => false
  | l@(c :: rest) => scanParenOK l || (isWS c && validTailMore rest)

/-- `\s+[^\n{]*\(` — the part of the validation regex after `func`. -/
def fragValidAfterFunc : List Char → Bool
  | [] => false
  | c :: rest => isWS c && validTailMore rest

/-- The fragment validation `/func\s+[^\n{]*\(/.test(fragment)`: search for a
match at any position. -/
def fragValid : List Char → Bool
  | [] => false
  | l@(_ :: rest) =>
    (leadsWith ['f', 'u', 'n', 'c'] l && fragValidAfterFunc (l.drop 4)) || fragValid rest

/-- JS `slice(a, b)` for `0 ≤ a ≤ b`. -/
def sliceL (l : List Char) (a b : Nat) : List Char := (l.take b).drop a

/-- The outer `while` of `extractFunctionMatches`: find the next `func` token,
reject it when glued to an identifier character on either side, otherwise
consume the signature window and keep it when the validation regex accepts. -/
def extractLoop (l : List Char) : Nat → Nat → List String
  | 0, _ => []
  | fuel + 1, i =>
    if i < l.length then
      match findSubFrom l ['f', 'u', 'n', 'c'] i with
      | none => []
      | some idx =>
        if 0 < idx && isWordChar ((l[idx - 1]?).getD ' ') then
          extractLoop l fuel (idx + 4)
        else
          let afterOk := match l[idx + 4]? with
            | some a => isWS a || a = '('
            | none => true
          if !afterOk then extractLoop l fuel (idx + 4)
          else
            let j := scanSig l (l.length + 1) (idx + 4) 0 0
            let frag := sliceL l idx j
            if fragValid frag then ⟨frag⟩ :: extractLoop l fuel j
            else extractLoop l fuel j
    else []

/-- `GoParser.extractFunctionMatches` (goParser.ts). -/
def extractFunctionMatches (code : String) : List String :=
  let src := (removeComments code).data
  extractLoop src (src.length + 1) 0

/-- `^([A-Za-z_]\w*)` — take a leading identifier. -/
def identTake (l : List Char) : Option (List Char × List Char) :=
  match l with
  | c :: rest =>
    if isIdentStart c then
      let tail := rest.takeWhile isWordChar
      some (c :: tail, rest.drop tail.length)
    else none
  | [] => none

/-- One attempt of `/([A-Za-z_]\w*)\s*\[([^\]]+)\]/` anchored at the head:
identifier, optional whitespace, then a nonempty bracket group; returns the
bracket content (capture group 2). -/
def rgAt (l : List Char) : Option (List Char) :=
  match l with
  | c :: rest =>
    if isIdentStart c then
      let afterIdent := rest.dropWhile isWordChar
      let afterWs := afterIdent.dropWhile isWS
      match afterWs with
      | '[' :: t =>
        let content := t.takeWhile (· ≠ ']')
        if content ≠ [] && t.drop content.length ≠ [] then some content else none
      | _ => none
    else none
  | [] => none

/-- Leftmost match of `/([A-Za-z_]\w*)\s*\[([^\]]+)\]/` (receiver generics). -/
def rgSearch : List Char → Option (List Char)
  | [] => none
  | l@(_ :: rest) =>
    match rgAt l with
    | some g => some g
    | none => rgSearch rest

/-- Does `\[.*\]$` match starting right after a `[` whose tail is `rest`:
the string must end in `]` with no line terminator in between. -/
def bracketTail (rest : List Char) : Bool :=
  rest.getLast? = some ']' && rest.dropLast.all (fun c => !isLineTerm c)

/-- `replace(/\[.*\]$/, "")`: drop from the leftmost `[` that is followed, on
the same line, by a `]` ending the string. -/
def stripTrailingBrackets : List Char → List Char
  | [] => []
  | x :: rest =>
    if x = '[' && bracketTail rest then []
    else x :: stripTrailingBrackets rest

/-- `GoParser.extractReceiverType` (goParser.ts): last whitespace-separated
token, leading `*` stripped, last `.`-component (falling back when empty),
trailing bracket group dropped. -/
def extractReceiverType (receiver : String) : Option String :=
  if receiver.data = [] then none
  else
    let parts := (jsSplitWs receiver.data).filter (· ≠ [])
    match parts.getLast? with
    | none => none
    | some last =>
      let noPtr := match last with
        | '*' :: t => t
        | _ => last
      let comps := splitOnChar '.' noPtr
      let lastComp := (comps.getLast?).getD []
      let noPkg := if lastComp = [] then noPtr else lastComp
      some ⟨stripTrailingBrackets noPkg⟩

/-- The comma split of `parseParameters`: top-level commas only (parenthesis
depth clamped at zero), each piece trimmed, empty pieces dropped. -/
def segAux : List Char → Nat → List Char → List (List Char)
  | [], _, buf => if trimL buf ≠ [] then [trimL buf] else []
  | ch :: rest, pd, buf =>
    let pd' := if ch = '(' then pd + 1 else if ch = ')' then pd - 1 else pd
    if ch = ',' && pd' = 0 then
      (if trimL buf ≠ [] then [trimL buf] else []) ++ segAux rest pd' []
    else segAux rest pd' (buf ++ [ch])

/-- `pushTyped` from `parseParameters`: give every buffered name the cleaned
type (whitespace collapsed and trimmed); empty names are skipped. -/
def pushTyped (params : List Param) (names : List (List Char)) (ty : List Char) :
    List Param :=
  let cleanType := trimL (collapseWs ty)
  params ++ names.filterMap fun n =>
    if n = [] then none else some ⟨⟨n⟩, some ⟨cleanType⟩, none⟩

/-- One iteration of the `for (const raw of segments)` loop of
`parseParameters`, acting on the `(params, pendingNames)` state. -/
def segStep : List Param × List (List Char) → List Char → List Param × List (List Char)
  | (params, pending), raw =>
    if raw = [] then (params, pending)
    else if leadsWith ['f', 'u', 'n', 'c', '('] raw then
      (params ++ [⟨"(anonymous)", some ⟨raw⟩, none⟩], pending)
    else if raw.any isWS then
      let tokens := jsSplitWs raw
      let first := tokens.headD []
      let restType := joinSpace (tokens.drop 1)
      if pending ≠ [] then (pushTyped params (pending ++ [first]) restType, [])
      else (pushTyped params [first] restType, pending)
    else (params, pending ++ [dropTrailingComma raw])

/-- `GoParser.parseParameters` (goParser.ts). -/
def parseParameters (paramsStr : String) : List Param :=
  if trimL paramsStr.data = [] then []
  else
    let segments := segAux paramsStr.data 0 []
    let st := segments.foldl segStep ([], [])
    st.1 ++ st.2.map fun n => ⟨⟨n⟩, none, none⟩

/-- `replace(/\{.*/, "")`: remove the first opening brace and the rest of its
line. -/
def replaceBraceToEol (l : List Char) : List Char :=
  match findSub [lbrace] l with
  | none => l
  | some p => l.take p ++ (l.drop (p + 1)).dropWhile (fun c => !isLineTerm c)

/-- `GoParser.parseFunctionSignature` (goParser.ts). -/
def parseFunctionSignature (decl : String) : Option FunctionSignature :=
  let s0 := trimL decl.data
  if leadsWith ['f', 'u', 'n', 'c'] s0 then
    let s1 := trimL (s0.drop 4)
    let rcv : Option (List Char) × List Char := match s1 with
      | '(' :: _ =>
        let p := readBalancedL s1 '(' ')'
        (some (trimL (p.1.drop 1).dropLast), trimL p.2)
      | _ => (none, s1)
    let receiverRaw := rcv.1
    let s2 := rcv.2
    match identTake s2 with
    | none => none
    | some nm =>
      let name := nm.1
      let s3 := trimL nm.2
      let gen : Option (List Char) × List Char := match s3 with
        | '[' :: _ =>
          match findSub [']'] s3 with
          | some endIdx => (some (trimL (sliceL s3 1 endIdx)), trimL (s3.drop (endIdx + 1)))
          | none => (none, s3)
        | _ => (none, s3)
      let genericRaw := gen.1
      let s4 := gen.2
      match s4 with
      | '(' :: _ =>
        let pb := readBalancedL s4 '(' ')'
        let paramsRaw := (pb.1.drop 1).dropLast
        let s5 := trimL pb.2
        let returnType : Option (List Char) := match s5 with
          | '(' :: _ =>
            let rb := readBalancedL s5 '(' ')'
            some ('(' :: (trimL ((rb.1.drop 1).dropLast) ++ [')']))
          | _ =>
            let run := s5.takeWhile (fun c => !(c = lbrace || c = '\n'))
            if run ≠ [] && s5[run.length]? = some lbrace then
              let rt := trimL run
              if rt ≠ [] then some rt else none
            else
              let rt2 := trimL (replaceBraceToEol s5)
              if rt2 ≠ [] then some rt2 else none
        let parameters := parseParameters ⟨paramsRaw⟩
        let className : Option (List Char) :=
          match receiverRaw with
          | some r => if r ≠ [] then (extractReceiverType ⟨r⟩).map String.data else none
          | none => none
        let receiverGenerics : Option (List Char) :=
          match receiverRaw with
          | some r =>
            if r ≠ [] then (rgSearch r).map trimL else none
          | none => none
        let genTruthy := match genericRaw with
          | some g => if g ≠ [] then some g else none
          | none => none
        let rcvGenTruthy := match receiverGenerics with
          | some g => if g ≠ [] then some g else none
          | none => none
        let finalName := match genTruthy with
          | some g => name ++ '[' :: (g ++ [']'])
          | none =>
            match rcvGenTruthy with
            | some g => name ++ '[' :: (g ++ [']'])
            | none => name
        let normalizedReturn : Option (List Char) := match returnType with
          | some rt =>
            let cleaned := trimL rt
            if cleaned ≠ [] then some cleaned else none
          | none => none
        let classNameTruthy := match className with
          | some c2 => if c2 ≠ [] then some c2 else none
          | none => none
        some
          { name := ⟨finalName⟩
            parameters := parameters
            returnType := normalizedReturn.map fun rt => (⟨rt⟩ : String)
            className := classNameTruthy.map fun c2 => (⟨c2⟩ : String) }
      | _ => none
  else none

/-- `GoParser.extractSignatures`, i.e. the inherited
`BaseParser.extractSignatures` instantiated with the Go hooks. -/
def extractSignatures (code : String) : List FunctionSignature :=
  BaseParser.extractSignatures extractFunctionMatches parseFunctionSignature code

end GoParser

namespace TypeScriptParser

/-- The bracket-depth record of `parseParameters` (tsParser.ts); JS numbers
may go negative, hence `Int`. -/
structure Depth where
  paren : Int
  angle : Int
  square : Int
  curly : Int
deriving Repr, DecidableEq

def insideBrackets (d : Depth) : Bool :=
  d.paren > 0 || d.angle > 0 || d.square > 0 || d.curly > 0

/-- The `switch` of `parseParameters` updating the depth record; `>` is not
counted when the previous character is `=` (an arrow `=>`). -/
def updateDepth (d : Depth) (ch : Char) (prev : Option Char) : Depth :=
  if ch = '(' then { d with paren := d.paren + 1 }
  else if ch = ')' then { d with paren := d.paren - 1 }
  else if ch = '<' then { d with angle := d.angle + 1 }
  else if ch = '>' then if prev = some '=' then d else { d with angle := d.angle - 1 }
  else if ch = '[' then { d with square := d.square + 1 }
  else if ch = ']' then { d with square := d.square - 1 }
  else if ch = lbrace then { d with curly := d.curly + 1 }
  else if ch = rbrace then { d with curly := d.curly - 1 }
  else d

/-- The backward `while` of `processParam` that skips `=>` tokens when
stripping a default value (positions as JS numbers, `-1` for "not found"). -/
def stripLoop (ty : List Char) : Nat → Int → Int
  | 0, e => e
  | fuel + 1, e =>
    if 0 < e ∧ ty[(e - 1).toNat]? ≠ some '=' ∧ ty[(e + 1).toNat]? = some '>' then
      stripLoop ty fuel
        (match lastIdxLE '=' ty (e - 1).toNat with
         | some p => (p : Int)
         | none => -1)
    else e

/-- `processParam` of `parseParameters` (tsParser.ts): split at the first
colon, strip a default value unless the type carries an arrow. -/
def processParam (params : List Param) (paramText : List Char) : List Param :=
  let t := trimL paramText
  if t = [] then params
  else
    match findSub [':'] t with
    | none => params ++ [⟨⟨t⟩, none, none⟩]
    | some colonPos =>
      let name := trimL (t.take colonPos)
      let ty0 := trimL (t.drop (colonPos + 1))
      let ty :=
        if jsIncludes ty0 ['='] && !jsIncludes ty0 ['=', '>'] then
          let e0 : Int := match lastIdxOfChar '=' ty0 with
            | some p => (p : Int)
            | none => -1
          let e := stripLoop ty0 ty0.length e0
          if e ≠ -1 then trimL (ty0.take e.toNat) else ty0
        else ty0
      params ++ [⟨⟨name⟩, some ⟨ty⟩, none⟩]

/-- The character loop of `parseParameters`, carrying the previous character
for the `=>` test; a top-level comma flushes the buffer. -/
def scanParams : List Char → Option Char → Depth → List Char → List Param → List Param
  | [], _, _, buffer, params =>
    if trimL buffer ≠ [] then processParam params buffer else params
  | ch :: rest, prev, d, buffer, params =>
    let buffer' := buffer ++ [ch]
    let d' := updateDepth d ch prev
    if ch = ',' && !insideBrackets d' then
      scanParams rest (some ch) d' [] (processParam params (trimL buffer))
    else scanParams rest (some ch) d' buffer' params

/-- `TypeScriptParser.parseParameters` (tsParser.ts). -/
def parseParameters (paramsStr : String) : List Param :=
  if trimL paramsStr.data = [] then []
  else scanParams paramsStr.data none ⟨0, 0, 0, 0⟩ [] []

/-- The dedup loop closing `extractFunctionMatches` (tsParser.ts, lines
124-135): trim each candidate and keep first occurrences, tracked with a
`seen` set. -/
def dedupSeen : List String → List String → List String
  | [], _ => []
  | m :: rest, seen =>
    let t := jsTrim m
    if t ∈ seen then dedupSeen rest seen else t :: dedupSeen rest (t :: seen)

/-- `const merged = [...funcDecls, ...arrows, ...methods]` followed by the
dedup loop — the tail of `TypeScriptParser.extractFunctionMatches`. -/
def mergeAndDedup (funcDecls arrows methods : List String) : List String :=
  dedupSeen (funcDecls ++ arrows ++ methods) []

end TypeScriptParser

/-- First-occurrence deduplication stated the standard declarative way — the
spec-side reading of "duplicates removed, order = first-seen". -/
def dedupFirst : List String → List String
  | [] => []
  | a :: l => a :: dedupFirst (l.filter (fun b => b ≠ a))
termination_by l => l.length
decreasing_by
  simp only [List.length_cons]
  exact Nat.lt_succ_of_le (List.length_filter_le _ _)

namespace RustParser

/-- The optional return-type group `(?:\s*->\s*([^…]+))?` shared by the Rust
regexes; `stop` is the excluded character class of the capture.  `none` means
the group fails and the regex continues without it. -/
def tryRet (stop : Char → Bool) (l : List Char) : Option (List Char × List Char) :=
  match l.dropWhile isWS with
  | '-' :: '>' :: r2 =>
    let r3 := r2.dropWhile isWS
    let run := r3.takeWhile (fun c => !stop c)
    if run ≠ [] then some (run, r3.drop run.length) else none
  | _ => none

/-- `[^{=\n]` complement — the return-type capture class of `functionRegex`,
the impl `methodRegex` and the `parseFunctionSignature` regex. -/
def retStopFn (c : Char) : Bool := c = lbrace || c = '=' || c = '\n'

/-- `[^{=\n;]` complement — the trait `methodRegex` return-type class. -/
def retStopTrait (c : Char) : Bool := c = lbrace || c = '=' || c = '\n' || c = ';'

/-- One attempt of
`/^fn\s+(\w+)\s*\(([^)]*)\)(?:\s*->\s*([^{=\n]+))?\s*\{/` at the head of `l`
(the `^` line anchor is checked by the caller).  Returns
`(name, params, returnType?, remainder)`. -/
def topFnMatchAt (l : List Char) : Option (String × String × Option String × List Char) :=
  match l with
  | 'f' :: 'n' :: rest =>
    let ws1 := rest.takeWhile isWS
    if ws1 = [] then none
    else
      let r1 := rest.drop ws1.length
      let name := r1.takeWhile isWordChar
      if name = [] then none
      else
        let r2 := (r1.drop name.length).dropWhile isWS
        match r2 with
        | '(' :: r3 =>
          let params := r3.takeWhile (· ≠ ')')
          match r3.drop params.length with
          | ')' :: r4 =>
            match tryRet retStopFn r4 with
            | some (run, rem) =>
              match rem.dropWhile isWS with
              | b :: r5 => if b = lbrace then some (⟨name⟩, ⟨params⟩, some ⟨run⟩, r5) else none
              | [] => none
            | none =>
              match r4.dropWhile isWS with
              | b :: r5 => if b = lbrace then some (⟨name⟩, ⟨params⟩, none, r5) else none
              | [] => none
          | _ => none
        | _ => none
  | _ => none

/-- `fn ${name}(${params})${returnType ? ` -> ${returnType}` : ''}`, then
`trim()`. -/
def buildTopFnSig (name params : String) (ret : Option String) : String :=
  jsTrim ("fn " ++ name ++ "(" ++ params ++ ")" ++
    (match ret with
     | some rt => if rt ≠ "" then " -> " ++ rt else ""
     | none => ""))

/-- The `functionRegex.exec` loop (flags `gm`): a match may start only at the
string start or right after a line terminator. -/
def topFnScan : Nat → List Char → Option Char → List String
  | 0, _, _ => []
  | _ + 1, [], _ => []
  | fuel + 1, l@(x :: rest), prev =>
    let atLineStart := match prev with
      | none => true
      | some p => isLineTerm p
    if atLineStart then
      match topFnMatchAt l with
      | some (name, params, ret, rem) =>
        buildTopFnSig name params ret :: topFnScan fuel rem (some lbrace)
      | none => topFnScan fuel rest (some x)
    else topFnScan fuel rest (some x)

/-- The `(&?self,?\s*([^)]*))?` group of the impl `methodRegex`: returns the
pieces `(amp, tail)` — the whole capture group 2 is `amp ++ "self" ++ tail` —
plus the remainder. -/
def trySelfGroup (inner : List Char) : Option (String × String × List Char) :=
  let ampRest : String × List Char := match inner with
    | '&' :: t => ("&", t)
    | _ => ("", inner)
  if leadsWith ['s', 'e', 'l', 'f'] ampRest.2 then
    let t2 := ampRest.2.drop 4
    let commaRest : String × List Char := match t2 with
      | ',' :: r => (",", r)
      | _ => ("", t2)
    let wsp := commaRest.2.takeWhile isWS
    let t4 := commaRest.2.drop wsp.length
    let g3 := t4.takeWhile (· ≠ ')')
    some (ampRest.1, commaRest.1 ++ (⟨wsp⟩ : String) ++ (⟨g3⟩ : String), t4.drop g3.length)
  else none

/-- One attempt of the impl `methodRegex`
`/fn\s+(\w+)\s*\((&?self,?\s*([^)]*))?\)(?:\s*->\s*([^{=\n]+))?/` at the head
of `l`; capture group 2 is kept as its pieces `(amp, tail)`. -/
def implMethodMatchAt (l : List Char) :
    Option (String × Option (String × String) × Option String × List Char) :=
  match l with
  | 'f' :: 'n' :: rest =>
    let ws1 := rest.takeWhile isWS
    if ws1 = [] then none
    else
      let r1 := rest.drop ws1.length
      let name := r1.takeWhile isWordChar
      if name = [] then none
      else
        let r2 := (r1.drop name.length).dropWhile isWS
        match r2 with
        | '(' :: inner =>
          let afterGroup : Option (Option (String × String) × List Char) :=
            match trySelfGroup inner with
            | some (amp, tail, rem) =>
              match rem with
              | ')' :: r4 => some (some (amp, tail), r4)
              | _ => none
            | none =>
              match inner with
              | ')' :: r4 => some (none, r4)
              | _ => none
          match afterGroup with
          | some (g2, r4) =>
            match tryRet retStopFn r4 with
            | some (run, rem) => some (⟨name⟩, g2, some ⟨run⟩, rem)
            | none => some (⟨name⟩, g2, none, r4)
          | none => none
        | _ => none
  | _ => none

/-- The loop body of `extractImplMethods`: rebuild `params` (capture 2, `''`
when the group is absent), synthesize `&self` when `params` does not contain
`self`, and format the renamed signature. -/
def buildImplSig (typeName : String) (name : String) (g2 : Option (String × String))
    (ret : Option String) : String :=
  let params : String := match g2 with
    | some (amp, tail) => amp ++ "self" ++ tail
    | none => ""
  let fullParams :=
    if jsIncludes params.data ['s', 'e', 'l', 'f'] then params
    else "&self" ++ (if params ≠ "" then ", " ++ params else "")
  jsTrim ("fn " ++ typeName ++ "::" ++ name ++ "(" ++ fullParams ++ ")" ++
    (match ret with
     | some rt => if rt ≠ "" then " -> " ++ rt else ""
     | none => ""))

/-- The `methodRegex.exec` loop of `extractImplMethods` (no anchor: on a
failed attempt the start advances by one character). -/
def implMethodScan (typeName : String) : Nat → List Char → List String
  | 0, _ => []
  | _ + 1, [] => []
  | fuel + 1, l@(_ :: rest) =>
    match implMethodMatchAt l with
    | some (name, g2, ret, rem) =>
      buildImplSig typeName name g2 ret :: implMethodScan typeName fuel rem
    | none => implMethodScan typeName fuel rest

/-- `RustParser.extractImplMethods` (rustParser.ts). -/
def extractImplMethods (implBody : String) (typeName : String) : List String :=
  implMethodScan typeName (implBody.data.length + 1) implBody.data

/-- One attempt of the trait `methodRegex`
`/fn\s+(\w+)\s*\(([^)]*)\)(?:\s*->\s*([^{=\n;]+))?/` at the head of `l`. -/
def traitMethodMatchAt (l : List Char) :
    Option (String × String × Option String × List Char) :=
  match l with
  | 'f' :: 'n' :: rest =>
    let ws1 := rest.takeWhile isWS
    if ws1 = [] then none
    else
      let r1 := rest.drop ws1.length
      let name := r1.takeWhile isWordChar
      if name = [] then none
      else
        let r2 := (r1.drop name.length).dropWhile isWS
        match r2 with
        | '(' :: r3 =>
          let params := r3.takeWhile (· ≠ ')')
          match r3.drop params.length with
          | ')' :: r4 =>
            match tryRet retStopTrait r4 with
            | some (run, rem) => some (⟨name⟩, ⟨params⟩, some ⟨run⟩, rem)
            | none => some (⟨name⟩, ⟨params⟩, none, r4)
          | _ => none
        | _ => none
  | _ => none

/-- The loop body of `extractTraitMethods`: rename only, parameters emitted
unchanged. -/
def buildTraitSig (traitName name params : String) (ret : Option String) : String :=
  jsTrim ("fn " ++ traitName ++ "::" ++ name ++ "(" ++ params ++ ")" ++
    (match ret with
     | some rt => if rt ≠ "" then " -> " ++ rt else ""
     | none => ""))

/-- The `methodRegex.exec` loop of `extractTraitMethods`. -/
def traitMethodScan (traitName : String) : Nat → List Char → List String
  | 0, _ => []
  | _ + 1, [] => []
  | fuel + 1, l@(_ :: rest) =>
    match traitMethodMatchAt l with
    | some (name, params, ret, rem) =>
      buildTraitSig traitName name params ret :: traitMethodScan traitName fuel rem
    | none => traitMethodScan traitName fuel rest

/-- `RustParser.extractTraitMethods` (rustParser.ts). -/
def extractTraitMethods (traitBody : String) (traitName : String) : List String :=
  traitMethodScan traitName (traitBody.data.length + 1) traitBody.data

/-- One attempt of `/impl\s+(\w+)\s*\{([^}]*)\}/` (or the `trait` variant) at
the head of `l`: returns `(typeName, body, remainder)`. -/
def blockMatchAt (kw : List Char) (l : List Char) : Option (String × String × List Char) :=
  if leadsWith kw l then
    let rest := l.drop kw.length
    let ws1 := rest.takeWhile isWS
    if ws1 = [] then none
    else
      let r1 := rest.drop ws1.length
      let name := r1.takeWhile isWordChar
      if name = [] then none
      else
        let r2 := (r1.drop name.length).dropWhile isWS
        match r2 with
        | b :: r3 =>
          if b = lbrace then
            let body := r3.takeWhile (· ≠ rbrace)
            match r3.drop body.length with
            | _ :: r4 => some (⟨name⟩, ⟨body⟩, r4)
            | [] => none
          else none
        | [] => none
  else none

/-- The `implRegex`/`traitRegex` exec loops, flattening each block's method
list in order. -/
def blockScan (kw : List Char) (mkMethods : String → String → List String) :
    Nat → List Char → List String
  | 0, _ => []
  | _ + 1, [] => []
  | fuel + 1, l@(_ :: rest) =>
    match blockMatchAt kw l with
    | some (name, body, rem) => mkMethods body name ++ blockScan kw mkMethods fuel rem
    | none => blockScan kw mkMethods fuel rest

/-- `RustParser.extractFunctionMatches` (rustParser.ts): top-level functions,
then impl-block methods, then trait methods. -/
def extractFunctionMatches (code : String) : List String :=
  topFnScan (code.data.length + 1) code.data none ++
    blockScan ['i', 'm', 'p', 'l'] extractImplMethods (code.data.length + 1) code.data ++
    blockScan ['t', 'r', 'a', 'i', 't'] extractTraitMethods (code.data.length + 1) code.data

/-- One attempt of the `parseFunctionSignature` regex
`/fn\s+(\w+)(?:::(\w+))?\s*\(([^)]*)\)(?:\s*->\s*([^{=\n]+))?/` at the head
of `l`. -/
def sigMatchAt (l : List Char) :
    Option (String × Option String × String × Option String) :=
  match l with
  | 'f' :: 'n' :: rest =>
    let ws1 := rest.takeWhile isWS
    if ws1 = [] then none
    else
      let r1 := rest.drop ws1.length
      let g1 := r1.takeWhile isWordChar
      if g1 = [] then none
      else
        let afterG1 := r1.drop g1.length
        let opt2 : Option String × List Char := match afterG1 with
          | ':' :: ':' :: r =>
            let g2 := r.takeWhile isWordChar
            if g2 = [] then (none, afterG1) else (some ⟨g2⟩, r.drop g2.length)
          | _ => (none, afterG1)
        match opt2.2.dropWhile isWS with
        | '(' :: r3 =>
          let g3 := r3.takeWhile (· ≠ ')')
          match r3.drop g3.length with
          | ')' :: r4 =>
            match tryRet retStopFn r4 with
            | some (run, _) => some (⟨g1⟩, opt2.1, ⟨g3⟩, some ⟨run⟩)
            | none => some (⟨g1⟩, opt2.1, ⟨g3⟩, none)
          | _ => none
        | _ => none
  | _ => none

/-- Leftmost match of the `parseFunctionSignature` regex (a `match` search). -/
def sigSearch : List Char → Option (String × Option String × String × Option String)
  | [] => none
  | l@(_ :: rest) =>
    match sigMatchAt l with
    | some m => some m
    | none => sigSearch rest

/-- `replace(/^mut\s+/, "")`. -/
def stripMutKw (l : List Char) : List Char :=
  match l with
  | 'm' :: 'u' :: 't' :: rest =>
    match rest with
    | c :: _ => if isWS c then rest.dropWhile isWS else l
    | [] => l
  | _ => l

/-- `RustParser.parseParameters` (rustParser.ts). -/
def parseParameters (paramsStr : String) : List Param :=
  (((splitOnChar ',' paramsStr.data).map trimL).filter (· ≠ [])).map fun p =>
    if p = "&self".data || p = "self".data || p = "&mut self".data then
      ⟨"self", none, none⟩
    else
      let parts := (splitOnChar ':' p).map trimL
      let nameAndMut := parts.headD []
      let ty := parts[1]?
      let name := stripMutKw nameAndMut
      let isMut := leadsWith ['m', 'u', 't', ' '] nameAndMut
      ⟨⟨name⟩,
       (match ty with
        | some t => if t = [] then none else some (⟨t⟩ : String)
        | none => none),
       if isMut then some true else none⟩

/-- `RustParser.parseFunctionSignature` (rustParser.ts). -/
def parseFunctionSignature (fnDeclaration : String) : Option FunctionSignature :=
  match sigSearch fnDeclaration.data with
  | none => none
  | some (name, typeName, params, returnType) =>
    let fullName := match typeName with
      | some t => name ++ "::" ++ t
      | none => name
    let isMethod := jsIncludes params.data ['s', 'e', 'l', 'f']
    some
      { name := fullName
        parameters := parseParameters params
        returnType := match returnType with
          | some rt => if rt ≠ "" then some (jsTrim rt) else none
          | none => none
        isMethod := if isMethod then some true else none }

/-- `RustParser.extractSignatures` via the shared base implementation. -/
def extractSignatures (code : String) : List FunctionSignature :=
  BaseParser.extractSignatures extractFunctionMatches parseFunctionSignature code

end RustParser

namespace PhpParser

/-- `#.*$` line comments (the second pass of `PhpParser.removeComments`). -/
def stripHashAux : List Char → Bool → List Char
  | [], _ => []
  | x :: xs, true => if isLineTerm x then x :: stripHashAux xs false else stripHashAux xs true
  | x :: xs, false => if x = '#' then stripHashAux xs true else x :: stripHashAux xs false

/-- `PhpParser.removeComments`: `//` line comments, `#` line comments, then
block comments — the first and third passes coincide with the Go ones. -/
def removeComments (code : String) : String :=
  let s1 := GoParser.stripLineAux code.data false
  let s2 := stripHashAux s1 false
  ⟨GoParser.stripBlockAux s2.length s2⟩

/-- `PhpParser.captureBalancedBlock`: the body between balanced braces and
the remainder after the closing brace; when unbalanced, everything after the
opening brace and an empty remainder. -/
def captureBalancedBlock (l : List Char) : List Char × List Char :=
  match l with
  | b :: _ =>
    if b = lbrace then
      match rbFind lbrace rbrace l 0 with
      | some k => (GoParser.sliceL l 1 k, l.drop (k + 1))
      | none => (l.drop 1, [])
    else ([], l)
  | [] => ([], l)

/-- One attempt of `/class\s+([A-Za-z_]\w*)[^{]*\{/` at the head of `l`:
returns the class name and the remainder anchored at the opening brace. -/
def classMatchAt (l : List Char) : Option (String × List Char) :=
  if leadsWith ['c', 'l', 'a', 's', 's'] l then
    let rest := l.drop 5
    let ws1 := rest.takeWhile isWS
    if ws1 = [] then none
    else
      match GoParser.identTake (rest.drop ws1.length) with
      | some (name, r2) =>
        let gap := r2.takeWhile (· ≠ lbrace)
        match r2.drop gap.length with
        | _ :: _ => some (⟨name⟩, r2.drop gap.length)
        | [] => none
      | none => none
  else none

/-- JS `\b`: the word/non-word transition between the previous character and
the current one. -/
def isBoundary (prev : Option Char) (curr : Char) : Bool :=
  (match prev with
   | some p => isWordChar p
   | none => false) != isWordChar curr

/-- The `(public|protected|private)?` alternation. -/
def tryVis (l : List Char) : Option (List Char) :=
  if leadsWith ("public".data) l then some (l.drop 6)
  else if leadsWith ("protected".data) l then some (l.drop 9)
  else if leadsWith ("private".data) l then some (l.drop 7)
  else none

/-- The shared tail `\(([^)]*)\)\s*(?::\s*([^{;\n]+))?` of the PHP function
regexes, applied after the identifier: returns `(params, returnType?,
remainder)`. -/
def fnTailAt (r2 : List Char) : Option (String × Option String × List Char) :=
  match r2.dropWhile isWS with
  | '(' :: r3 =>
    let params := r3.takeWhile (· ≠ ')')
    match r3.drop params.length with
    | ')' :: r4 =>
      let r5 := r4.dropWhile isWS
      let retGroup : Option (List Char) × List Char := match r5 with
        | ':' :: r6 =>
          let r7 := r6.dropWhile isWS
          let run := r7.takeWhile (fun ch => !(ch = lbrace || ch = ';' || ch = '\n'))
          if run ≠ [] then (some run, r7.drop run.length) else (none, r5)
        | _ => (none, r5)
      some (⟨params⟩, retGroup.1.map fun r => (⟨r⟩ : String), retGroup.2)
    | _ => none
  | _ => none

/-- One attempt of the method regex
`/\b(public|protected|private)?\s*(static\s+)?function\s+([A-Za-z_]\w*)\s*\(([^)]*)\)\s*(?::\s*([^{;\n]+))?/`
at the head of `l`. -/
def methodMatchAt (prev : Option Char) (l : List Char) :
    Option (String × String × Option String × List Char) :=
  match l with
  | c :: _ =>
    if isBoundary prev c then
      let afterVis := match tryVis l with
        | some r => r
        | none => l
      let afterVisWs := afterVis.dropWhile isWS
      let afterStatic :=
        if leadsWith ("static".data) afterVisWs then
          let r := afterVisWs.drop 6
          let w := r.takeWhile isWS
          if w = [] then afterVisWs else r.drop w.length
        else afterVisWs
      if leadsWith ("function".data) afterStatic then
        let r1 := afterStatic.drop 8
        let ws1 := r1.takeWhile isWS
        if ws1 = [] then none
        else
          match GoParser.identTake (r1.drop ws1.length) with
          | some (name, r2) =>
            (fnTailAt r2).map fun t => ((⟨name⟩ : String), t.1, t.2.1, t.2.2)
          | none => none
      else none
    else none
  | [] => none

/-- The method push of `extractFunctionMatches`: leading whitespace stripped
from the captured parameters, the owning-class marker comment appended. -/
def buildMethodSig (className name params : String) (ret : Option String) : String :=
  "function " ++ name ++ "(" ++ (⟨params.data.dropWhile isWS⟩ : String) ++ ")" ++
    (match ret with
     | some rt => if rt ≠ "" then ": " ++ jsTrim rt else ""
     | none => "") ++ " /*__CLASS:" ++ className ++ "__*/"

/-- The `methodRegex.exec` loop over a class body. -/
def methodScan (className : String) : Nat → Option Char → List Char → List String
  | 0, _, _ => []
  | _ + 1, _, [] => []
  | fuel + 1, prev, l@(x :: rest) =>
    match methodMatchAt prev l with
    | some (name, params, ret, rem) =>
      buildMethodSig className name params ret ::
        methodScan className fuel (l[l.length - rem.length - 1]?) rem
    | none => methodScan className fuel (some x) rest

/-- The `classRegex.exec` loop of `extractFunctionMatches`: push the class
signature, scan its balanced body for methods, and resume after the body. -/
def classScan : Nat → List Char → List String
  | 0, _ => []
  | _ + 1, [] => []
  | fuel + 1, l@(_ :: rest) =>
    match classMatchAt l with
    | some (className, atBrace) =>
      let bodyRem := captureBalancedBlock atBrace
      (("class " ++ className) ::
          methodScan className (bodyRem.1.length + 1) none bodyRem.1) ++
        classScan fuel bodyRem.2
    | none => classScan fuel rest

/-- One attempt of the global regex
`/\bfunction\s+([A-Za-z_]\w*)\s*\(([^)]*)\)\s*(?::\s*([^{;\n]+))?/`. -/
def globalFuncMatchAt (prev : Option Char) (l : List Char) :
    Option (String × String × Option String × List Char) :=
  match l with
  | c :: _ =>
    if isBoundary prev c && leadsWith ("function".data) l then
      let r1 := l.drop 8
      let ws1 := r1.takeWhile isWS
      if ws1 = [] then none
      else
        match GoParser.identTake (r1.drop ws1.length) with
        | some (name, r2) =>
          (fnTailAt r2).map fun t => ((⟨name⟩ : String), t.1, t.2.1, t.2.2)
        | none => none
    else none
  | [] => none

/-- The global function push (no class marker). -/
def buildGlobalSig (name params : String) (ret : Option String) : String :=
  "function " ++ name ++ "(" ++ (⟨params.data.dropWhile isWS⟩ : String) ++ ")" ++
    (match ret with
     | some rt => if rt ≠ "" then ": " ++ jsTrim rt else ""
     | none => "")

/-- The `globalFuncRegex.exec` loop; a match whose text contains the class
marker is skipped (the guard in the source). -/
def globalScan : Nat → Option Char → List Char → List String
  | 0, _, _ => []
  | _ + 1, _, [] => []
  | fuel + 1, prev, l@(x :: rest) =>
    match globalFuncMatchAt prev l with
    | some (name, params, ret, rem) =>
      let full := l.take (l.length - rem.length)
      let tailMatches := globalScan fuel (l[l.length - rem.length - 1]?) rem
      if jsIncludes full ("/*__CLASS:".data) then tailMatches
      else buildGlobalSig name params ret :: tailMatches
    | none => globalScan fuel (some x) rest

/-- `replace(/\(\s+/g, "(")`; the flag is true right after an emitted `(`. -/
def rpwAux : List Char → Bool → List Char
  | [], _ => []
  | x :: xs, true =>
    if isWS x then rpwAux xs true
    else if x = '(' then x :: rpwAux xs true
    else x :: rpwAux xs false
  | x :: xs, false =>
    if x = '(' then x :: rpwAux xs true
    else x :: rpwAux xs false

def replaceParenWs (s : String) : String := ⟨rpwAux s.data false⟩

/-- `PhpParser.extractFunctionMatches` (rustParser.ts, PhpParser section):
classes with their methods, then global functions, then the
`(`-whitespace normalization applied to every match. -/
def extractFunctionMatches (code : String) : List String :=
  let wc := (removeComments code).data
  (classScan (wc.length + 1) wc ++ globalScan (wc.length + 1) none wc).map replaceParenWs

/-- The end-anchored marker regex `/\/\*__CLASS:([A-Za-z_]\w*)__\*\/$/`,
attempted at the head of `l`: the marker must run exactly to the end. -/
def markerAt (l : List Char) : Option (List Char) :=
  if leadsWith ("/*__CLASS:".data) l then
    let t := l.drop 10
    if t.length < 5 then none
    else
      let w := t.take (t.length - 4)
      if t.drop (t.length - 4) = "__*/".data ∧ w ≠ [] ∧
          isIdentStart (w.headD ' ') ∧ w.all isWordChar then some w
      else none
  else none

/-- Leftmost match of the marker regex: `(start index, class name)`. -/
def markerSearch : List Char → Option (Nat × List Char)
  | [] => none
  | l@(_ :: rest) =>
    match markerAt l with
    | some w => some (0, w)
    | none => (markerSearch rest).map fun pr => (pr.1 + 1, pr.2)

/-- `replace(/[{;]\s*$/, "")` — drop a trailing `{` or `;` plus whitespace. -/
def stripEndSemi : List Char → List Char
  | [] => []
  | x :: rest =>
    if (x = lbrace || x = ';') && rest.all isWS then []
    else x :: stripEndSemi rest

/-- `PhpParser.normalizeReturnType`. -/
def normalizeReturnType (ret : Option (List Char)) : Option String :=
  match ret with
  | none => none
  | some r =>
    let t := stripEndSemi (trimL r)
    if t = [] then none else some ⟨t⟩

/-- Remainder after the first `]` (for the attribute regex `#\[[^\]]*\]`). -/
def cutAfterRBracket : List Char → Option (List Char)
  | [] => none
  | ']' :: rest => some rest
  | _ :: rest => cutAfterRBracket rest

/-- `replace(/#\[[^\]]*\]\s*/g, "")` — strip PHP attributes. -/
def stripAttrs : Nat → List Char → List Char
  | 0, l => l
  | _ + 1, [] => []
  | fuel + 1, x :: xs =>
    if x = '#' then
      match xs with
      | '[' :: rest =>
        match cutAfterRBracket rest with
        | some rem => stripAttrs fuel (rem.dropWhile isWS)
        | none => x :: stripAttrs fuel xs
      | _ => x :: stripAttrs fuel xs
    else x :: stripAttrs fuel xs

/-- `replace(/\.\.\./g, "")`. -/
def stripTripleDots : Nat → List Char → List Char
  | 0, l => l
  | _ + 1, [] => []
  | fuel + 1, l@(x :: xs) =>
    if leadsWith ['.', '.', '.'] l then stripTripleDots fuel (l.drop 3)
    else x :: stripTripleDots fuel xs

/-- First match of `/\$[A-Za-z_]\w*/`: `(index of the dollar, identifier)`. -/
def dollarSearch : List Char → Option (Nat × List Char)
  | [] => none
  | '$' :: rest =>
    match GoParser.identTake rest with
    | some (nm, _) => some (0, nm)
    | none => (dollarSearch rest).map fun pr => (pr.1 + 1, pr.2)
  | _ :: rest => (dollarSearch rest).map fun pr => (pr.1 + 1, pr.2)

/-- `PhpParser.parseParameters` (rustParser.ts, PhpParser section). -/
def parseParameters (paramsStr : String) : List Param :=
  if trimL paramsStr.data = [] then []
  else
    (((splitOnChar ',' paramsStr.data).map trimL).filter (· ≠ [])).map fun raw =>
      let noDefault := trimL ((splitOnChar '=' raw).headD [])
      let isVariadic := jsIncludes noDefault ['.', '.', '.', '$']
      let cleaned := stripAttrs noDefault.length noDefault
      match dollarSearch cleaned with
      | some (idx, nm) =>
        let typePart0 := trimL (cleaned.take idx)
        let typePart := trimL (stripTripleDots typePart0.length (typePart0.filter (· ≠ '&')))
        let ty : Option String := if typePart = [] then none else some ⟨typePart⟩
        let ty2 : Option String :=
          if isVariadic then
            some (match ty with
              | some t => "..." ++ t
              | none => "...")
          else ty
        ⟨⟨nm⟩, ty2, none⟩
      | none =>
        let ty2 : Option String := if isVariadic then some "..." else none
        ⟨⟨cleaned⟩, ty2, none⟩

/-- `PhpParser.parseFunctionSignature` (rustParser.ts, PhpParser section). -/
def parseFunctionSignature (decl : String) : Option FunctionSignature :=
  let d0 := trimL decl.data
  if leadsWith ("class ".data) d0 then
    let rest := d0.drop 5
    let ws1 := rest.takeWhile isWS
    if ws1 = [] then none
    else
      match GoParser.identTake (rest.drop ws1.length) with
      | some (nm, _) => some { name := ⟨nm⟩, parameters := [] }
      | none => none
  else if leadsWith ("function".data) d0 then
    let markerRes := markerSearch d0
    let className : Option String := markerRes.map fun pr => (⟨pr.2⟩ : String)
    let d1 := match markerRes with
      | some pr => trimL (d0.take pr.1)
      | none => d0
    let r0 := d1.drop 8
    let ws1 := r0.takeWhile isWS
    if ws1 = [] then none
    else
      match GoParser.identTake (r0.drop ws1.length) with
      | some (nm, r2) =>
        match fnTailAt r2 with
        | some (params, retRaw, _) =>
          some
            { name := ⟨nm⟩
              parameters := parseParameters params
              returnType := normalizeReturnType (retRaw.map String.data)
              className := className }
        | none => none
      | none => none
  else none

/-- `PhpParser.extractSignatures` via the shared base implementation. -/
def extractSignatures (code : String) : List FunctionSignature :=
  BaseParser.extractSignatures extractFunctionMatches parseFunctionSignature code

end PhpParser

/-! ### Lemmas about the balanced scan -/

theorem rbBal_nil (o c : Char) : rbBal o c [] = 0 := rfl

theorem rbBal_cons (o c x : Char) (l : List Char) :
    rbBal o c (x :: l) = rbDelta o c x + rbBal o c l := by
  simp [rbBal]

theorem rbDelta_ge (o c x : Char) : -1 ≤ rbDelta o c x := by
  unfold rbDelta
  split <;> [omega; skip]
  split <;> omega

theorem rbDelta_eq_neg_one (o c x : Char) (h : rbDelta o c x = -1) :
    x = c := by
  unfold rbDelta at h
  split at h
  · omega
  · split at h
    · assumption
    · omega

theorem rbBal_take_succ (o c : Char) (l : List Char) (m : Nat) (h : m < l.length) :
    rbBal o c (l.take (m + 1)) = rbBal o c (l.take m) + rbDelta o c l[m] := by
  rw [List.take_succ, rbBal, List.map_append, List.sum_append]
  simp [rbBal, List.getElem?_eq_getElem h]

theorem rbFind_sound (o c : Char) (hne : o ≠ c) :
    ∀ (l : List Char) (d : Int) (k : Nat), rbFind o c l d = some k →
      k < l.length ∧ l[k]? = some c ∧ d + rbBal o c (l.take (k + 1)) = 0 ∧
        ∀ m, m < k → ¬(l[m]? = some c ∧ d + rbBal o c (l.take (m + 1)) = 0) := by
  intro l
  induction l with
  | nil => intro d k h; simp [rbFind] at h
  | cons x rest ih =>
    intro d k h
    rw [rbFind] at h
    by_cases hxo : x = o
    · simp only [if_pos hxo, Option.map_eq_some'] at h
      obtain ⟨k', hk', rfl⟩ := h
      obtain ⟨h1, h2, h3, h4⟩ := ih (d + 1) k' hk'
      refine ⟨by simpa using h1, by simpa using h2, ?_, ?_⟩
      · rw [List.take_succ_cons, rbBal_cons]
        have : rbDelta o c x = 1 := by simp [rbDelta, hxo]
        omega
      · intro m hm
        match m with
        | 0 =>
          intro ⟨hc, _⟩
          simp only [List.getElem?_cons_zero, Option.some.injEq] at hc
          exact hne (hxo ▸ hc ▸ rfl)
        | m' + 1 =>
          intro ⟨hc, hb⟩
          refine h4 m' (by omega) ⟨by simpa using hc, ?_⟩
          rw [List.take_succ_cons, rbBal_cons] at hb
          have : rbDelta o c x = 1 := by simp [rbDelta, hxo]
          omega
    · by_cases hxc : x = c
      · simp only [if_neg hxo, if_pos hxc] at h
        by_cases hd : d - 1 = 0
        · simp only [if_pos hd, Option.some.injEq] at h
          subst h
          refine ⟨by simp, by simp [hxc], ?_, by omega⟩
          rw [List.take_succ_cons, List.take_zero, rbBal_cons, rbBal_nil]
          have : rbDelta o c x = -1 := by simp [rbDelta, hxo, hxc, Ne.symm hne]
          omega
        · simp only [if_neg hd, Option.map_eq_some'] at h
          obtain ⟨k', hk', rfl⟩ := h
          obtain ⟨h1, h2, h3, h4⟩ := ih (d - 1) k' hk'
          have hdx : rbDelta o c x = -1 := by simp [rbDelta, hxo, hxc, Ne.symm hne]
          refine ⟨by simpa using h1, by simpa using h2, ?_, ?_⟩
          · rw [List.take_succ_cons, rbBal_cons]
            omega
          · intro m hm
            match m with
            | 0 =>
              intro ⟨_, hb⟩
              rw [List.take_succ_cons, List.take_zero, rbBal_cons, rbBal_nil] at hb
              omega
            | m' + 1 =>
              intro ⟨hc, hb⟩
              refine h4 m' (by omega) ⟨by simpa using hc, ?_⟩
              rw [List.take_succ_cons, rbBal_cons] at hb
              omega
      · simp only [if_neg hxo, if_neg hxc, Option.map_eq_some'] at h
        obtain ⟨k', hk', rfl⟩ := h
        obtain ⟨h1, h2, h3, h4⟩ := ih d k' hk'
        have hdx : rbDelta o c x = 0 := by simp [rbDelta, hxo, hxc]
        refine ⟨by simpa using h1, by simpa using h2, ?_, ?_⟩
        · rw [List.take_succ_cons, rbBal_cons]
          omega
        · intro m hm
          match m with
          | 0 =>
            intro ⟨hc, _⟩
            simp only [List.getElem?_cons_zero, Option.some.injEq] at hc
            exact hxc (hc ▸ rfl)
          | m' + 1 =>
            intro ⟨hc, hb⟩
            refine h4 m' (by omega) ⟨by simpa using hc, ?_⟩
            rw [List.take_succ_cons, rbBal_cons] at hb
            omega

theorem rbFind_none (o c : Char) (hne : o ≠ c) :
    ∀ (l : List Char) (d : Int), rbFind o c l d = none →
      ∀ k, ¬(l[k]? = some c ∧ d + rbBal o c (l.take (k + 1)) = 0) := by
  intro l
  induction l with
  | nil => intro d _ k; simp
  | cons x rest ih =>
    intro d h k
    rw [rbFind] at h
    by_cases hxo : x = o
    · simp only [if_pos hxo, Option.map_eq_none'] at h
      match k with
      | 0 =>
        intro ⟨hc, _⟩
        simp only [List.getElem?_cons_zero, Option.some.injEq] at hc
        exact hne (hxo ▸ hc ▸ rfl)
      | k' + 1 =>
        intro ⟨hc, hb⟩
        refine ih (d + 1) h k' ⟨by simpa using hc, ?_⟩
        rw [List.take_succ_cons, rbBal_cons] at hb
        have : rbDelta o c x = 1 := by simp [rbDelta, hxo]
        omega
    · by_cases hxc : x = c
      · simp only [if_neg hxo, if_pos hxc] at h
        by_cases hd : d - 1 = 0
        · simp [if_pos hd] at h
        · simp only [if_neg hd, Option.map_eq_none'] at h
          have hdx : rbDelta o c x = -1 := by simp [rbDelta, hxo, hxc, Ne.symm hne]
          match k with
          | 0 =>
            intro ⟨_, hb⟩
            rw [List.take_succ_cons, List.take_zero, rbBal_cons, rbBal_nil] at hb
            omega
          | k' + 1 =>
            intro ⟨hc, hb⟩
            refine ih (d - 1) h k' ⟨by simpa using hc, ?_⟩
            rw [List.take_succ_cons, rbBal_cons] at hb
            omega
      · simp only [if_neg hxo, if_neg hxc, Option.map_eq_none'] at h
        have hdx : rbDelta o c x = 0 := by simp [rbDelta, hxo, hxc]
        match k with
        | 0 =>
          intro ⟨hc, _⟩
          simp only [List.getElem?_cons_zero, Option.some.injEq] at hc
          exact hxc (hc ▸ rfl)
        | k' + 1 =>
          intro ⟨hc, hb⟩
          refine ih d h k' ⟨by simpa using hc, ?_⟩
          rw [List.take_succ_cons, rbBal_cons] at hb
          omega

/-- While no prefix balance has returned to zero, every nonempty prefix of a
scan starting at the opening delimiter has positive balance. -/
theorem rbBal_pos_of_no_zero (o c : Char) (l : List Char)
    (hhead : l[0]? = some o) (n : Nat)
    (hmin : ∀ m, m < n → 0 < m → rbBal o c (l.take m) ≠ 0) :
    ∀ m, m < n → 0 < m → m ≤ l.length → 0 < rbBal o c (l.take m) := by
  intro m
  induction m with
  | zero => omega
  | succ p ih =>
    intro hlt _ hle
    by_cases hp : p = 0
    · subst hp
      have hlen : 0 < l.length := by omega
      have h1 : l.take 1 = [l[0]] := by
        rw [List.take_succ, List.take_zero]
        simp [List.getElem?_eq_getElem hlen]
      have h0 : l[0] = o := by
        have := List.getElem?_eq_getElem hlen (l := l)
        rw [hhead] at this
        exact (Option.some.injEq _ _).mp this.symm
      rw [h1, h0]
      simp [rbBal, rbDelta]
    · have hppos : 0 < p := Nat.pos_of_ne_zero hp
      have hplt : p < l.length := by omega
      have hprev : 0 < rbBal o c (l.take p) := ih (by omega) hppos (by omega)
      have hstep := rbBal_take_succ o c l p hplt
      have hdelta := rbDelta_ge o c l[p]
      have hne0 := hmin (p + 1) hlt (by omega)
      omega

/-- C3: the balanced-delimiter scanner `readBalanced`, for every string,
start index and delimiter pair: (i) if the start index does not hold the
opening delimiter it returns empty content and the unchanged position (the Go
variant returns the input string unchanged); (ii) if the delimiters are
unbalanced — no prefix of the suffix starting at `start` has zero net depth,
i.e. no matching close before the end of the string — it returns the
remainder of the string as content and the end-of-string position (the Go
variant: empty rest); (iii) if `n` is the length of the shortest nonempty
zero-depth prefix, it returns that full balanced substring inclusive of both
delimiters and the index just past the matching close (the Go variant: the
suffix just past the matching close) — the content starts with the opening
delimiter, ends with the matching close, and every proper nonempty prefix has
positive depth, nested occurrences of the same pair counting as nesting. -/
theorem C3_readBalanced_spec (src : String) (start : Nat) (o c : Char)
    (hne : o ≠ c) :
    (src.data[start]? ≠ some o →
      TypeScriptParser.readBalanced src start o c = ("", start) ∧
      GoParser.readBalanced src start o c = ("", src)) ∧
    (src.data[start]? = some o →
      (∀ n, n < (src.data.drop start).length + 1 → 0 < n →
          rbBal o c ((src.data.drop start).take n) ≠ 0) →
      TypeScriptParser.readBalanced src start o c =
          (⟨src.data.drop start⟩, src.data.length) ∧
      GoParser.readBalanced src start o c = (⟨src.data.drop start⟩, "")) ∧
    (∀ n, src.data[start]? = some o →
      n ≤ (src.data.drop start).length → 0 < n →
      rbBal o c ((src.data.drop start).take n) = 0 →
      (∀ m, m < n → 0 < m → rbBal o c ((src.data.drop start).take m) ≠ 0) →
      TypeScriptParser.readBalanced src start o c =
          (⟨(src.data.drop start).take n⟩, start + n) ∧
      GoParser.readBalanced src start o c =
          (⟨(src.data.drop start).take n⟩, ⟨src.data.drop (start + n)⟩) ∧
      ((src.data.drop start).take n)[0]? = some o ∧
      ((src.data.drop start).take n).getLast? = some c ∧
      (∀ m, m < n → 0 < m → 0 < rbBal o c ((src.data.drop start).take m))) := by
  refine ⟨?_, ?_, ?_⟩
  · intro h
    unfold TypeScriptParser.readBalanced GoParser.readBalanced
    rcases hm : src.data[start]? with _ | ch
    · exact ⟨rfl, rfl⟩
    · have hcho : ¬(ch = o) := fun he => h (by rw [hm, he])
      simp [hcho]
  · intro hhead hnz
    have hfind : rbFind o c (src.data.drop start) 0 = none := by
      cases hf : rbFind o c (src.data.drop start) 0 with
      | none => rfl
      | some k =>
        obtain ⟨h1, _, h3, _⟩ := rbFind_sound o c hne _ 0 k hf
        exact absurd (by simpa using h3) (hnz (k + 1) (by omega) (by omega))
    unfold TypeScriptParser.readBalanced GoParser.readBalanced
    rw [hhead]
    simp [hfind]
  · intro n hhead hnle hn0 hbal hmin
    have hhead' : (src.data.drop start)[0]? = some o := by
      rw [List.getElem?_drop]
      simpa using hhead
    set l := src.data.drop start with hl
    have hlen0 : 0 < l.length := by omega
    have htake1 : rbBal o c (l.take 1) = 1 := by
      have h0 : l[0] = o := by
        have h := List.getElem?_eq_getElem (l := l) hlen0
        rw [hhead'] at h
        exact ((Option.some.injEq _ _).mp h.symm)
      have h1 : l.take 1 = [l[0]] := by
        rw [List.take_succ, List.take_zero]
        simp [List.getElem?_eq_getElem hlen0]
      rw [h1, h0]
      simp [rbBal, rbDelta]
    have hn2 : 2 ≤ n := by
      by_contra hcon
      have hn1' : n = 1 := by omega
      subst hn1'
      omega
    have hposall : ∀ m, m < n → 0 < m → 0 < rbBal o c (l.take m) :=
      fun m hm h0 => rbBal_pos_of_no_zero o c l hhead' n hmin m hm h0 (by omega)
    have hn1lt : n - 1 < l.length := by omega
    have hn1 : n - 1 + 1 = n := by omega
    have hstep := rbBal_take_succ o c l (n - 1) hn1lt
    rw [hn1] at hstep
    have hprev : 0 < rbBal o c (l.take (n - 1)) := hposall (n - 1) (by omega) (by omega)
    have hdge := rbDelta_ge o c l[n - 1]
    have hdelta : rbDelta o c l[n - 1] = -1 := by omega
    have hcharc : l[n - 1] = c := rbDelta_eq_neg_one o c _ hdelta
    have hchar? : l[n - 1]? = some c := by
      rw [List.getElem?_eq_getElem hn1lt, hcharc]
    have hfind : rbFind o c l 0 = some (n - 1) := by
      cases hf : rbFind o c l 0 with
      | none =>
        exact absurd ⟨hchar?, by rw [hn1]; omega⟩ (rbFind_none o c hne l 0 hf (n - 1))
      | some k =>
        obtain ⟨h1, h2, h3, h4⟩ := rbFind_sound o c hne l 0 k hf
        have hk1 : ¬(k + 1 < n) := fun hlt =>
          hmin (k + 1) hlt (by omega) (by simpa using h3)
        have hk2 : ¬(n - 1 < k) := fun hlt =>
          h4 (n - 1) hlt ⟨hchar?, by rw [hn1]; omega⟩
        have hkn : k = n - 1 := by omega
        rw [hkn]
    have harith : start + (n - 1) + 1 = start + n := by omega
    refine ⟨?_, ?_, ?_, ?_, hposall⟩
    · unfold TypeScriptParser.readBalanced
      rw [hhead]
      simp only [← hl, hfind, eq_self_iff_true, if_true, hn1, harith]
    · unfold GoParser.readBalanced
      rw [hhead]
      simp only [← hl, hfind, eq_self_iff_true, if_true, hn1, harith]
    · rw [List.getElem?_take, if_pos hn0]
      exact hhead'
    · rw [List.getLast?_eq_getElem?, List.length_take]
      have hmn : min n l.length = n := by omega
      rw [hmn, List.getElem?_take, if_pos (by omega : n - 1 < n)]
      exact hchar?

/-- Witness for C3: a concrete balanced scan, `"(a(b))c"` from index 0, where
the shortest zero-depth prefix has length 6. -/
theorem C3_readBalanced_spec_witness :
    TypeScriptParser.readBalanced "(a(b))c" 0 '(' ')' = ("(a(b))", 6) ∧
    GoParser.readBalanced "(a(b))c" 0 '(' ')' = ("(a(b))", "c") := by
  have h := (C3_readBalanced_spec "(a(b))c" 0 '(' ')' (by decide)).2.2 6
    (by decide) (by decide) (by decide) (by decide) (by decide)
  exact ⟨by rw [h.1]; decide, by rw [h.2.1]; decide⟩

/-! ### Lemmas about first-occurrence deduplication -/

theorem dedupFirst_nil : dedupFirst [] = [] := by
  rw [dedupFirst.eq_def]

theorem dedupFirst_cons (a : String) (l : List String) :
    dedupFirst (a :: l) = a :: dedupFirst (l.filter (fun b => b ≠ a)) := by
  rw [dedupFirst.eq_def]

theorem mem_dedupFirst : ∀ (l : List String) (x : String), x ∈ dedupFirst l → x ∈ l := by
  intro l
  induction l using dedupFirst.induct with
  | case1 => intro x hx; rw [dedupFirst_nil] at hx; exact absurd hx (List.not_mem_nil x)
  | case2 a t ih =>
    intro x hx
    rw [dedupFirst_cons] at hx
    rcases List.mem_cons.mp hx with rfl | hx
    · exact List.mem_cons_self _ _
    · exact List.mem_cons_of_mem _ (List.mem_of_mem_filter (ih x hx))

theorem dedupFirst_nodup : ∀ l : List String, (dedupFirst l).Nodup := by
  intro l
  induction l using dedupFirst.induct with
  | case1 => rw [dedupFirst_nil]; exact List.nodup_nil
  | case2 a t ih =>
    rw [dedupFirst_cons]
    refine List.nodup_cons.mpr ⟨fun hmem => ?_, ih⟩
    have := mem_dedupFirst _ _ hmem
    simp at this

theorem filter_filter_notmem (X : List String) (t : String) (seen : List String) :
    (X.filter (fun u => decide (u ∉ seen))).filter (fun u => u ≠ t) =
      X.filter (fun u => decide (u ∉ t :: seen)) := by
  rw [List.filter_filter]
  apply List.filter_congr
  intro u _
  simp only [List.mem_cons, not_or, decide_not]
  cases hd1 : decide (u = t) <;> cases hd2 : decide (u ∈ seen) <;>
    simp_all

theorem dedupSeen_eq (l : List String) :
    ∀ seen : List String, TypeScriptParser.dedupSeen l seen =
      dedupFirst ((l.map jsTrim).filter (fun t => decide (t ∉ seen))) := by
  induction l with
  | nil => intro seen; rw [TypeScriptParser.dedupSeen]; simp [dedupFirst_nil]
  | cons m rest ih =>
    intro seen
    rw [TypeScriptParser.dedupSeen]
    by_cases hmem : jsTrim m ∈ seen
    · rw [if_pos hmem, List.map_cons, List.filter_cons]
      simp only [hmem, not_true_eq_false, decide_False, Bool.false_eq_true, if_false]
      exact ih seen
    · rw [if_neg hmem, List.map_cons, List.filter_cons]
      simp only [hmem, not_false_eq_true, decide_True, if_true]
      rw [dedupFirst_cons, ih (jsTrim m :: seen), filter_filter_notmem]

/-! ### Shape lemmas for the Rust method scans -/

theorem implMethodScan_shape (ty : String) :
    ∀ (fuel : Nat) (l : List Char) (m : String),
      m ∈ RustParser.implMethodScan ty fuel l →
      ∃ name g2 ret, m = RustParser.buildImplSig ty name g2 ret := by
  intro fuel
  induction fuel with
  | zero => intro l m hm; rw [RustParser.implMethodScan] at hm; exact absurd hm (List.not_mem_nil m)
  | succ f ih =>
    intro l m hm
    match l with
    | [] =>
      rw [RustParser.implMethodScan] at hm
      exact absurd hm (List.not_mem_nil m)
    | x :: rest =>
      rw [RustParser.implMethodScan] at hm
      cases hmt : RustParser.implMethodMatchAt (x :: rest) with
      | some tup =>
        obtain ⟨name, g2, ret, rem⟩ := tup
        rw [hmt] at hm
        rcases List.mem_cons.mp hm with rfl | hm'
        · exact ⟨name, g2, ret, rfl⟩
        · exact ih rem m hm'
      | none =>
        rw [hmt] at hm
        exact ih rest m hm

theorem traitMethodScan_shape (ty : String) :
    ∀ (fuel : Nat) (l : List Char) (m : String),
      m ∈ RustParser.traitMethodScan ty fuel l →
      ∃ name params ret, m = RustParser.buildTraitSig ty name params ret := by
  intro fuel
  induction fuel with
  | zero => intro l m hm; rw [RustParser.traitMethodScan] at hm; exact absurd hm (List.not_mem_nil m)
  | succ f ih =>
    intro l m hm
    match l with
    | [] =>
      rw [RustParser.traitMethodScan] at hm
      exact absurd hm (List.not_mem_nil m)
    | x :: rest =>
      rw [RustParser.traitMethodScan] at hm
      cases hmt : RustParser.traitMethodMatchAt (x :: rest) with
      | some tup =>
        obtain ⟨name, params, ret, rem⟩ := tup
        rw [hmt] at hm
        rcases List.mem_cons.mp hm with rfl | hm'
        · exact ⟨name, params, ret, rfl⟩
        · exact ih rem m hm'
      | none =>
        rw [hmt] at hm
        exact ih rest m hm

/-- The emitted impl-method parameter text always contains `self`: either the
matched capture group starts (after an optional `&`) with the literal `self`,
or `&self` is synthesized. -/
theorem buildImplSig_self (ty name : String) (g2 : Option (String × String))
    (ret : Option String) :
    ∃ fullParams retPart,
      RustParser.buildImplSig ty name g2 ret =
        jsTrim ("fn " ++ ty ++ "::" ++ name ++ "(" ++ fullParams ++ ")" ++ retPart) ∧
      ∃ pre post, fullParams = pre ++ "self" ++ post := by
  rcases g2 with _ | ⟨amp, tail⟩
  · refine ⟨"&self" ++ "",
      (match ret with
       | some rt => if rt ≠ "" then " -> " ++ rt else ""
       | none => ""), ?_, "&", "", by decide⟩
    rfl
  · by_cases h : jsIncludes ((amp ++ "self" ++ tail : String)).data ['s', 'e', 'l', 'f']
    · refine ⟨amp ++ "self" ++ tail,
        (match ret with
         | some rt => if rt ≠ "" then " -> " ++ rt else ""
         | none => ""), ?_, amp, tail, rfl⟩
      simp only [RustParser.buildImplSig, h, if_true]
    · refine ⟨"&self" ++ (if (amp ++ "self" ++ tail : String) ≠ "" then
          ", " ++ (amp ++ "self" ++ tail) else ""),
        (match ret with
         | some rt => if rt ≠ "" then " -> " ++ rt else ""
         | none => ""), ?_, "&",
        (if (amp ++ "self" ++ tail : String) ≠ "" then
          ", " ++ (amp ++ "self" ++ tail) else ""), ?_⟩
      · simp only [RustParser.buildImplSig, h, Bool.false_eq_true, if_false]
      · have hsplit : ("&self" : String) = "&" ++ "self" := by decide
        rw [hsplit, String.append_assoc]

/-! ### The claims -/

/-- C1: the public extraction entry point (`BaseParser.extractSignatures`)
returns a (possibly empty) list of signatures for every input — the embedding
is a total function, so no exception path exists — and a signature appears in
the result exactly when one of the extracted candidates parses to it, so any
candidate that does not fit the expected structural shape is skipped; for the
Go parser, a syntactically incomplete snippet (a `func` keyword with no
following parameter list) yields zero signatures. -/
theorem C1_extractSignatures_graceful :
    (∀ (em : String → List String) (pf : String → Option FunctionSignature)
        (code : String) (sig : FunctionSignature),
      sig ∈ BaseParser.extractSignatures em pf code ↔
        ∃ frag, frag ∈ em code ∧ pf frag = some sig) ∧
    GoParser.extractSignatures "func" = [] ∧
    GoParser.extractSignatures "func Incomplete" = [] := by
  refine ⟨fun em pf code sig => ?_, by decide, by decide⟩
  simp [BaseParser.extractSignatures, List.mem_filterMap]

/-- C2 (amended): the TypeScript extractor's merged candidate list is
deduplicated by trimmed text before being returned — the output is exactly
the declarative first-occurrence dedup of the trimmed merge, hence free of
duplicates and in first-occurrence order; the Go extractor performs no such
deduplication (see the counterexample). -/
theorem C2_ts_dedup_first_occurrence :
    ∀ funcDecls arrows methods : List String,
      TypeScriptParser.mergeAndDedup funcDecls arrows methods =
        dedupFirst ((funcDecls ++ arrows ++ methods).map jsTrim) ∧
      (TypeScriptParser.mergeAndDedup funcDecls arrows methods).Nodup := by
  intro fd ar me
  have h := dedupSeen_eq (fd ++ ar ++ me) []
  have hfilter :
      ((fd ++ ar ++ me).map jsTrim).filter (fun t => decide (t ∉ ([] : List String))) =
        (fd ++ ar ++ me).map jsTrim := by
    apply List.filter_eq_self.mpr
    intro a _
    simp
  rw [TypeScriptParser.mergeAndDedup, h, hfilter]
  exact ⟨rfl, dedupFirst_nodup _⟩

/-- C2 (counterexample): the Go extractor emits the identical fragment twice
when the exact same declaration occurs twice in the input, so its fragment
list does contain duplicates. -/
theorem C2_go_duplicate_cex :
    GoParser.extractFunctionMatches "func A() \x7b\x7d\nfunc A() \x7b\x7d" =
      ["func A() \x7b", "func A() \x7b"] ∧
    ¬ (GoParser.extractFunctionMatches "func A() \x7b\x7d\nfunc A() \x7b\x7d").Nodup := by
  decide

/-- C4: Go extraction of `func (c *Calculator) Add(x int) int { ... }` yields
one signature named `Add` with parameter `x : int`, return type `int` and
class name `Calculator`; the receiver-type reduction strips pointer sigils,
package qualifiers, and generic argument lists, as on the source's own
examples. -/
theorem C4_go_receiver_method :
    GoParser.extractSignatures "func (c *Calculator) Add(x int) int \x7b ... \x7d" =
      [{ name := "Add", parameters := [{ name := "x", type := some "int" }],
         returnType := some "int", className := some "Calculator" }] ∧
    GoParser.extractReceiverType "c *Calculator" = some "Calculator" ∧
    GoParser.extractReceiverType "c *pkg.Service[T]" = some "Service" ∧
    GoParser.extractReceiverType "*MyType" = some "MyType" ∧
    GoParser.extractReceiverType "m MyMap[K,V]" = some "MyMap" := by
  decide

/-- C5: Go extraction of `func Divide(a, b float64) (float64, error) { ... }`
yields parameters `a : float64`, `b : float64` — the grouped type applied
retroactively to the buffered bare name `a` and the terminal name `b` — and
the parenthesized multi-return text `(float64, error)` as return type. -/
theorem C5_go_grouped_params_multireturn :
    GoParser.extractSignatures "func Divide(a, b float64) (float64, error) \x7b ... \x7d" =
      [{ name := "Divide",
         parameters := [{ name := "a", type := some "float64" },
                        { name := "b", type := some "float64" }],
         returnType := some "(float64, error)" }] := by
  decide

/-- C6: Rust extraction of
`impl Calculator { fn add(&self, a: i32, b: i32) -> i32 {...} }` yields one
signature named `Calculator::add` with parameters `self`, `a : i32`,
`b : i32`, return type `i32`, and `isMethod` true. -/
theorem C6_rust_impl_method :
    RustParser.extractSignatures
        "impl Calculator \x7b fn add(&self, a: i32, b: i32) -> i32 \x7b...\x7d \x7d" =
      [{ name := "Calculator::add",
         parameters := [{ name := "self" }, { name := "a", type := some "i32" },
                        { name := "b", type := some "i32" }],
         returnType := some "i32", isMethod := some true }] := by
  decide

/-- C7 (amended): every method fragment emitted from a Rust `impl` body is
renamed `Type::method` and its emitted parameter text contains `self` — a
`&self` receiver is synthesized exactly when the matched parameter text does
not already contain the substring `self`; trait-body methods are renamed
`Trait::method` but their parameter lists are emitted unchanged, with no
`self` synthesis (see the counterexample). -/
theorem C7_rename_and_self :
    ∀ (body ty : String),
      (∀ m ∈ RustParser.extractImplMethods body ty,
        ∃ name fullParams retPart,
          m = jsTrim ("fn " ++ ty ++ "::" ++ name ++ "(" ++ fullParams ++ ")" ++ retPart) ∧
          ∃ pre post, fullParams = pre ++ "self" ++ post) ∧
      (∀ m ∈ RustParser.extractTraitMethods body ty,
        ∃ name params retPart,
          m = jsTrim ("fn " ++ ty ++ "::" ++ name ++ "(" ++ params ++ ")" ++ retPart)) := by
  intro body ty
  constructor
  · intro m hm
    obtain ⟨name, g2, ret, rfl⟩ := implMethodScan_shape ty _ _ m hm
    obtain ⟨fp, rp, heq, pre, post, hdec⟩ := buildImplSig_self ty name g2 ret
    exact ⟨name, fp, rp, heq, pre, post, hdec⟩
  · intro m hm
    obtain ⟨name, params, ret, rfl⟩ := traitMethodScan_shape ty _ _ m hm
    cases ret with
    | some rt => exact ⟨name, params, if rt ≠ "" then " -> " ++ rt else "", rfl⟩
    | none => exact ⟨name, params, "", rfl⟩

/-- Witness for C7 at a concrete impl body: the emitted fragment for
`fn add(&self, a: i32) -> i32` inside `impl Calc`. -/
theorem C7_rename_and_self_witness :
    ∃ name fullParams retPart,
      "fn Calc::add(&self, a: i32) -> i32" =
        jsTrim ("fn " ++ "Calc" ++ "::" ++ name ++ "(" ++ fullParams ++ ")" ++ retPart) ∧
      ∃ pre post, fullParams = pre ++ "self" ++ post := by
  refine (C7_rename_and_self " fn add(&self, a: i32) -> i32 " "Calc").1
    "fn Calc::add(&self, a: i32) -> i32" ?_
  decide

/-- C7 (counterexample): a trait method that does not mention `self` is
emitted renamed but with its parameter list unchanged — no `&self` receiver
is synthesized, so the emitted method signature's parameter list does not
include `self`. -/
theorem C7_trait_no_self_cex :
    RustParser.extractFunctionMatches "trait Greeter \x7b fn greet(name: String); \x7d" =
      ["fn Greeter::greet(name: String)"] ∧
    RustParser.extractSignatures "trait Greeter \x7b fn greet(name: String); \x7d" =
      [{ name := "Greeter::greet",
         parameters := [{ name := "name", type := some "String" }] }] ∧
    ∀ sig ∈ RustParser.extractSignatures "trait Greeter \x7b fn greet(name: String); \x7d",
      ∀ p ∈ sig.parameters, p.name ≠ "self" := by
  decide

/-- C8: the TypeScript depth-aware parameter splitter keeps commas nested in
`()`, `<>`, `[]`, `{}` inside one parameter: the example splits into exactly
two parameters. -/
theorem C8_ts_nested_param_split :
    TypeScriptParser.parseParameters
        "callback: (x: number) => string, data: Map<string, number[]>" =
      [{ name := "callback", type := some "(x: number) => string" },
       { name := "data", type := some "Map<string, number[]>" }] ∧
    (TypeScriptParser.parseParameters
        "callback: (x: number) => string, data: Map<string, number[]>").length = 2 := by
  decide

/-- C9: PHP extraction of `public function add(int $a, int $b): int {}`
inside `class Calculator {}`: the class-body method fragment carries the
embedded owning-class marker comment, normalization strips it back out, and
exactly one resulting signature has name `add`, parameters `a : int`,
`b : int`, return type `int` and class name `Calculator`.  (The global
function pass re-matches the method text without the marker, adding the same
signature with no `className`.) -/
theorem C9_php_class_method :
    PhpParser.extractFunctionMatches
        "<?php\nclass Calculator \x7b\n  public function add(int $a, int $b): int \x7b\x7d\n\x7d\n" =
      ["class Calculator",
       "function add(int $a, int $b): int /*__CLASS:Calculator__*/",
       "function add(int $a, int $b): int"] ∧
    PhpParser.extractSignatures
        "<?php\nclass Calculator \x7b\n  public function add(int $a, int $b): int \x7b\x7d\n\x7d\n" =
      [{ name := "Calculator", parameters := [] },
       { name := "add",
         parameters := [{ name := "a", type := some "int" },
                        { name := "b", type := some "int" }],
         returnType := some "int", className := some "Calculator" },
       { name := "add",
         parameters := [{ name := "a", type := some "int" },
                        { name := "b", type := some "int" }],
         returnType := some "int" }] ∧
    (PhpParser.extractSignatures
        "<?php\nclass Calculator \x7b\n  public function add(int $a, int $b): int \x7b\x7d\n\x7d\n").filter
        (fun s => decide (s.name = "add" ∧ s.className = some "Calculator")) =
      [{ name := "add",
         parameters := [{ name := "a", type := some "int" },
                        { name := "b", type := some "int" }],
         returnType := some "int", className := some "Calculator" }] := by
  decide

/-- C10: a Go parameter-list segment that begins with `func(` (an anonymous
function-type parameter) makes the segment step of `GoParser.parseParameters`
emit exactly one parameter whose name is the literal `(anonymous)` and whose
type is the entire segment text, leaving the pending-name buffer untouched;
shown also on a concrete run of `parseParameters`. -/
theorem C10_anonymous_func_param :
    (∀ (st : List Param × List (List Char)) (raw : List Char),
      leadsWith ['f', 'u', 'n', 'c', '('] raw = true →
      GoParser.segStep st raw =
        (st.1 ++ [{ name := "(anonymous)", type := some ⟨raw⟩ }], st.2)) ∧
    GoParser.parseParameters "func(string) error" =
      [{ name := "(anonymous)", type := some "func(string) error" }] := by
  refine ⟨?_, by decide⟩
  rintro ⟨params, pending⟩ raw h
  have hne : raw ≠ [] := by
    cases raw
    · simp [leadsWith] at h
    · simp
  rw [GoParser.segStep, if_neg hne, if_pos h]

/-- Witness for C10: the segment step on the concrete segment
`func(int) error` with a nonempty pending buffer. -/
theorem C10_anonymous_func_param_witness :
    GoParser.segStep ([], [['a']]) ("func(int) error".data) =
      ([{ name := "(anonymous)", type := some "func(int) error" }], [['a']]) := by
  have h := C10_anonymous_func_param.1 ([], [['a']]) ("func(int) error".data) (by decide)
  rw [h]
  decide

end CtxExtract
